import Mathlib

/-!
Verification of the entity status and audit-history subsystem
(`state` package: `statusDoc`, `mapKeys`, `escapeKeys`, `unescapeKeys`,
`getStatus`, `setStatus`, `updateStatusSource`, `probablyUpdateStatusHistory`,
`statusHistory`, `PruneStatusHistory`, `getOldestTimeToKeep`,
`getEntitiesWithStatuses`).

The Go code is shallowly embedded: dynamically-typed status data maps become
an inductive `Value` tree over association lists, the mongo document store
becomes an explicit `St` state record threaded through the operations, times
are `Nat` nanoseconds, and fallible store primitives are modelled with
explicit injectable faults (`Faults`) so that error-propagation behaviour can
be stated for every possible store outcome.
-/

namespace JujuStatus

/-! ### Status data values

Go's `map[string]interface{}` status data is modelled as an association list
of string keys to a variant `Value` (string, integer, boolean, or a nested
map). -/

inductive Value where
  | str : String → Value
  | num : Int → Value
  | boolean : Bool → Value
  | map : List (String × Value) → Value

/-! ### The key escaper -/

/-- Modelled from the spec: the reserved-character substitution table of
`escapeReplacer` is not under `src/`; the spec requires a fixed, injective
character substitution making the transform its own exact inverse. The store
reserves `.` and `$`; they are replaced by the full-width variants
U+FF0E and U+FF04. -/
def fullWidthDot : Char := Char.ofNat 0xff0e

/-- Modelled from the spec: the full-width dollar replacement character. -/
def fullWidthDollar : Char := Char.ofNat 0xff04

/-- Modelled from the spec: character-level escaping applied by
`escapeReplacer.Replace` to each rune of a key. -/
def escapeRune (c : Char) : Char :=
  if c = '.' then fullWidthDot
  else if c = '$' then fullWidthDollar
  else c

/-- Modelled from the spec: character-level unescaping applied by
`unescapeReplacer.Replace` to each rune of a key. -/
def unescapeRune (c : Char) : Char :=
  if c = fullWidthDot then '.'
  else if c = fullWidthDollar then '$'
  else c

/-- Applies a character substitution to every rune of a string, as Go's
`strings.Replacer` does for single-rune substitution pairs. -/
def mapString (g : Char → Char) (s : String) : String :=
  ⟨s.data.map g⟩

/-- The escaping string transform (`escapeReplacer.Replace`). -/
def escapeReplace (s : String) : String := mapString escapeRune s

/-- The unescaping string transform (`unescapeReplacer.Replace`). -/
def unescapeReplace (s : String) : String := mapString unescapeRune s

/-- `mapKeys` returns a copy of the supplied map, with all nested map
keys transformed by `f`. All other value types are ignored. -/
def mapKeys (f : String → String) : List (String × Value) → List (String × Value)
  | [] => []
  | (k, Value.map sub) :: rest => (f k, Value.map (mapKeys f sub)) :: mapKeys f rest
  | (k, v) :: rest => (f k, v) :: mapKeys f rest

/-- `escapeKeys` is used to escape bad keys in StatusData. -/
def escapeKeys (input : List (String × Value)) : List (String × Value) :=
  mapKeys escapeReplace input

/-- `unescapeKeys` restores escaped keys from StatusData to their original
values. -/
def unescapeKeys (input : List (String × Value)) : List (String × Value) :=
  mapKeys unescapeReplace input

/-- A string is clean when it contains none of the reserved escaped-form
characters. -/
def strOK (s : String) : Bool :=
  s.data.all (fun c => !(c == fullWidthDot) && !(c == fullWidthDollar))

/-- A status-data map is clean when every key, at every nesting depth, is
free of the reserved escaped-form characters. -/
def mapOK : List (String × Value) → Bool
  | [] => true
  | (k, Value.map sub) :: rest => strOK k && mapOK sub && mapOK rest
  | (k, _) :: rest => strOK k && mapOK rest

theorem unescapeRune_escapeRune (c : Char) (h1 : c ≠ fullWidthDot)
    (h2 : c ≠ fullWidthDollar) : unescapeRune (escapeRune c) = c := by
  by_cases hd : c = '.'
  · subst hd
    decide
  · by_cases hs : c = '$'
    · subst hs
      decide
    · simp only [escapeRune, if_neg hd, if_neg hs, unescapeRune, if_neg h1, if_neg h2]

theorem unescapeReplace_escapeReplace (s : String) (h : strOK s = true) :
    unescapeReplace (escapeReplace s) = s := by
  cases s with
  | mk data =>
    simp only [unescapeReplace, escapeReplace, mapString, List.map_map]
    congr 1
    rw [List.map_congr_left, List.map_id]
    intro c hc
    simp only [strOK, List.all_eq_true] at h
    have := h c hc
    simp only [Bool.and_eq_true, Bool.not_eq_true', beq_eq_false_iff_ne, ne_eq] at this
    exact unescapeRune_escapeRune c this.1 this.2

theorem unescapeKeys_escapeKeys :
    ∀ (m : List (String × Value)), mapOK m = true →
      mapKeys unescapeReplace (mapKeys escapeReplace m) = m
  | [], _ => by simp only [mapKeys]
  | (k, Value.map sub) :: rest, h => by
      simp only [mapOK, Bool.and_eq_true] at h
      simp only [mapKeys]
      rw [unescapeReplace_escapeReplace k h.1.1,
          unescapeKeys_escapeKeys sub h.1.2,
          unescapeKeys_escapeKeys rest h.2]
  | (k, Value.str s) :: rest, h => by
      simp only [mapOK, Bool.and_eq_true] at h
      simp only [mapKeys]
      rw [unescapeReplace_escapeReplace k h.1, unescapeKeys_escapeKeys rest h.2]
  | (k, Value.num n) :: rest, h => by
      simp only [mapOK, Bool.and_eq_true] at h
      simp only [mapKeys]
      rw [unescapeReplace_escapeReplace k h.1, unescapeKeys_escapeKeys rest h.2]
  | (k, Value.boolean b) :: rest, h => by
      simp only [mapOK, Bool.and_eq_true] at h
      simp only [mapKeys]
      rw [unescapeReplace_escapeReplace k h.1, unescapeKeys_escapeKeys rest h.2]

/-! ### Errors

`MgoErr` models the raw errors the underlying document store can report
(`mgo.ErrNotFound` or any other store failure). `JErr` models the juju error
values built on top of them: `errors.NotFoundf(badge)`, a traced raw store
error, a leadership-token invalidation, and `errors.Annotatef` wrappers.
`JErr.cause` models `errors.Cause`, which strips annotation wrappers. -/

inductive MgoErr where
  | notFound : MgoErr
  | other : String → MgoErr
deriving DecidableEq, Repr

inductive JErr where
  | mgo : MgoErr → JErr
  | notFoundf : String → JErr
  | invalidToken : String → JErr
  | annotate : String → JErr → JErr
deriving DecidableEq, Repr

def JErr.cause : JErr → JErr
  | .annotate _ e => e.cause
  | e => e

/-- `errors.IsNotFound`: holds when the cause is a `NotFoundf` error. -/
def JErr.isNotFound (e : JErr) : Bool :=
  match e.cause with
  | .notFoundf _ => true
  | _ => false

/-! ### The document store state

Modelled from the spec: the underlying transactional document store is not
under `src/`; per the spec it provides point lookup, assert-then-update,
unconditional insert, filtered descending-sorted queries, and an atomic
strictly-increasing counter (`sequence`). It is modelled as an explicit
state record threaded through the operations. -/

/-- `statusDoc` represents an entity status document: environment identifier,
status value, message, escaped status data, optional updated timestamp
(`Nat` nanoseconds), and the `NeverSet` flag. -/
structure statusDoc where
  envUUID : String
  status : String
  statusInfo : String
  statusData : List (String × Value)
  updated : Option Nat
  neverSet : Bool

/-- A stored current-status record: the document fields together with the
store-assigned transaction revision counter used for optimistic
concurrency. -/
structure storedStatus where
  doc : statusDoc
  txnRevno : Int

/-- `historicalStatusDoc`: one history entry — the identifier drawn from the
global sequence, environment identifier, owning entity's global key, and the
status snapshot (data already escaped). -/
structure historicalStatusDoc where
  id : Nat
  envUUID : String
  entityId : String
  status : String
  statusInfo : String
  statusData : List (String × Value)
  updated : Option Nat

/-- The store state: the current-status collection keyed by global key, the
status-history collection, the `statushistory` sequence counter, and the
environment identifier. -/
structure St where
  statuses : List (String × storedStatus)
  history : List historicalStatusDoc
  seq : Nat
  envUUID : String

/-- Association-list lookup (mongo `FindId`). -/
def alistFind : List (String × storedStatus) → String → Option storedStatus
  | [], _ => none
  | (k, v) :: rest, key => if k = key then some v else alistFind rest key

/-- Association-list in-place update of the record stored under a key
(mongo update of the matched document). -/
def alistUpdate : List (String × storedStatus) → String → storedStatus →
    List (String × storedStatus)
  | [], _, _ => []
  | (k, v) :: rest, key, nv =>
    if k = key then (k, nv) :: rest else (k, v) :: alistUpdate rest key nv

/-- Injectable store faults: each primitive that talks to the store can be
made to fail so that error-propagation behaviour is statable for every
store outcome. `applyFault = some .notFound` models the
optimistic-concurrency assertion failing at apply time, which the
underlying store reports as its not-found error class (spec §4.2 step 5).
`readRevnoFault` and `findFault` carry only non-not-found store failures:
a genuine not-found on those reads arises from the state itself. -/
structure Faults where
  seqFault : Option MgoErr
  histInsertFault : Option MgoErr
  readRevnoFault : Option String
  applyFault : Option MgoErr
  findFault : Option String
  histQueryFault : Option MgoErr

def noFaults : Faults := ⟨none, none, none, none, none, none⟩

def clearRecorderFaults (f : Faults) : Faults :=
  { f with seqFault := none, histInsertFault := none }

/-- A leadership token: its `Check` either accepts the proposed operations
(`valid = true`) or rejects them with an error. -/
structure Token where
  valid : Bool
  errMsg : String

/-- Whether an optional leadership token poses no obstacle: absent, or
still valid. -/
def tokenOK : Option Token → Bool
  | none => true
  | some t => t.valid

/-- `setStatusParams` configures a `setStatus` call. -/
structure setStatusParams where
  badge : String
  globalKey : String
  status : String
  message : String
  rawData : List (String × Value)
  token : Option Token

/-- The `StatusInfo` returned to readers. -/
structure StatusInfo where
  status : String
  message : String
  data : List (String × Value)
  since : Option Nat

/-- Modelled from the spec: `nowToTheSecond` is not under `src/`; the spec
requires the current time truncated to one-second precision. Time is `Nat`
nanoseconds. -/
def nowToTheSecond (now : Nat) : Nat := (now / 1000000000) * 1000000000

/-! ### Status store operations -/

/-- `getStatus` retrieves the status document associated with the given
globalKey and converts it to a `StatusInfo`. If the status document is not
found, a NotFound error referencing `badge` is returned; every error is
annotated with "cannot get status" (the deferred annotation). -/
def getStatus (st : St) (globalKey badge : String) (f : Faults) :
    Except JErr StatusInfo :=
  let findRes : Except MgoErr storedStatus :=
    match f.findFault with
    | some m => .error (.other m)
    | none =>
      match alistFind st.statuses globalKey with
      | none => .error .notFound
      | some d => .ok d
  match findRes with
  | .error .notFound => .error (.annotate "cannot get status" (.notFoundf badge))
  | .error e => .error (.annotate "cannot get status" (.mgo e))
  | .ok d =>
    .ok { status := d.doc.status, message := d.doc.statusInfo,
          data := unescapeKeys d.doc.statusData, since := d.doc.updated }

/-- `probablyUpdateStatusHistory` allocates the next value of the
`statushistory` sequence, builds a `historicalStatusDoc` and performs an
unconditional insert into the history collection. Failures of either step
are logged and swallowed; a sequence failure skips the insert entirely. -/
def probablyUpdateStatusHistory (st : St) (globalKey : String)
    (doc : statusDoc) (f : Faults) : St :=
  match f.seqFault with
  | some _ => st
  | none =>
    let id := st.seq
    let st1 : St := { st with seq := st.seq + 1 }
    match f.histInsertFault with
    | some _ => st1
    | none =>
      let hd : historicalStatusDoc :=
        { id := id, envUUID := st.envUUID, entityId := globalKey,
          status := doc.status, statusInfo := doc.statusInfo,
          statusData := doc.statusData, updated := doc.updated }
      { st1 with history := hd :: st1.history }

/-- The new status document built by `setStatus` from its params and the
truncated timestamp: env-uuid and NeverSet are left at their zero values,
status data keys are escaped. -/
def buildStatusDoc (p : setStatusParams) (now : Nat) : statusDoc :=
  { envUUID := "", status := p.status, statusInfo := p.message,
    statusData := escapeKeys p.rawData, updated := some (nowToTheSecond now),
    neverSet := false }

/-- `updateStatusSource` builds the conditional-update operation: it reads
the record's current txn-revno (failing with the store's not-found error
when no record exists for the key) so the update can assert the revision
unchanged. The operation content is summarised by the asserted revision. -/
def updateStatusSource (st : St) (globalKey : String) (f : Faults) :
    Except JErr Int :=
  match f.readRevnoFault with
  | some m => .error (.mgo (.other m))
  | none =>
    match alistFind st.statuses globalKey with
    | none => .error (.mgo .notFound)
    | some d => .ok d.txnRevno

/-- `wrapSource` composes the built operations with the leadership token's
own validity check: an invalidated token turns the build into a failure
before anything is applied. -/
def wrapSource (res : Except JErr Int) (token : Option Token) :
    Except JErr Int :=
  match res with
  | .error e => .error e
  | .ok r =>
    match token with
    | some t => if t.valid then .ok r else .error (.invalidToken t.errMsg)
    | none => .ok r

/-- Modelled from the spec: applying the asserted conditional update at the
store. The store re-checks the revision assertion at apply time; a missing
record or a revision mismatch is reported in the store's not-found error
class (`applyFault = some .notFound` models a concurrent writer having
bumped the revision between build and apply). On success the matched
document is overwritten with the new document and its revision advances. -/
def applyStatusOps (st : St) (globalKey : String) (doc : statusDoc)
    (revno : Int) (f : Faults) : St × Option JErr :=
  match f.applyFault with
  | some m => (st, some (.mgo m))
  | none =>
    match alistFind st.statuses globalKey with
    | none => (st, some (.mgo .notFound))
    | some d =>
      if d.txnRevno = revno then
        let nv : storedStatus := { doc := doc, txnRevno := d.txnRevno + 1 }
        let st2 : St := { st with statuses := alistUpdate st.statuses globalKey nv }
        (st2, none)
      else (st, some (.mgo .notFound))

/-- `st.run` over the wrapped transaction source: build, token-check,
apply. -/
def stRun (st : St) (globalKey : String) (doc : statusDoc)
    (token : Option Token) (f : Faults) : St × Option JErr :=
  match wrapSource (updateStatusSource st globalKey f) token with
  | .error e => (st, some e)
  | .ok revno => applyStatusOps st globalKey doc revno f

/-- `setStatus` interprets the supplied params: it builds the new status
document with the truncated timestamp and escaped data, records history
first (best effort), then runs the conditional update built by
`updateStatusSource`, wrapped with the leadership token check when a token
is present. A store not-found cause (missing record, or assertion mismatch
which the store reports in the same class) becomes NotFound(badge); every
error is annotated with "cannot set status". Returns the post-call store
state together with the optional error. -/
def setStatus (st : St) (p : setStatusParams) (now : Nat) (f : Faults) :
    St × Option JErr :=
  let doc := buildStatusDoc p now
  let st1 := probablyUpdateStatusHistory st p.globalKey doc f
  match stRun st1 p.globalKey doc p.token f with
  | (st2, none) => (st2, none)
  | (st2, some e) =>
    if e.cause = .mgo .notFound then
      (st2, some (.annotate "cannot set status" (.notFoundf p.badge)))
    else (st2, some (.annotate "cannot set status" e))

/-! ### History reader and pruner -/

/-- Docs of one entity, in insertion-store order (mongo filter by
`entityid`). -/
def docsOf (hist : List historicalStatusDoc) (globalKey : String) :
    List historicalStatusDoc :=
  hist.filter (fun d => d.entityId == globalKey)

/-- Descending order on history identifiers, used by the `-_id` sort. -/
def idGE (a b : historicalStatusDoc) : Prop := b.id ≤ a.id

instance : DecidableRel idGE := fun a b => Nat.decLe b.id a.id

instance : IsTotal historicalStatusDoc idGE :=
  ⟨fun a b => Nat.le_total b.id a.id⟩

instance : IsTrans historicalStatusDoc idGE :=
  ⟨fun _ _ _ h1 h2 => Nat.le_trans h2 h1⟩

/-- The `-_id` descending sort of the store. -/
def sortByIdDesc (docs : List historicalStatusDoc) : List historicalStatusDoc :=
  docs.insertionSort idGE

/-- The `StatusInfo` view of one history entry, as built by the reader
loop: data keys unescaped. -/
def historyInfoOf (d : historicalStatusDoc) : StatusInfo :=
  { status := d.status, message := d.statusInfo,
    data := unescapeKeys d.statusData, since := d.updated }

/-- `statusHistory` returns up to `size` most recent history entries for
the entity, newest first, with data keys unescaped. A store not-found on
the query becomes NotFound("status history"); any other query failure is
annotated with "cannot get status history". -/
def statusHistory (st : St) (globalKey : String) (size : Nat) (f : Faults) :
    Except JErr (List StatusInfo) :=
  match f.histQueryFault with
  | some .notFound => .error (.notFoundf "status history")
  | some (.other m) =>
    .error (.annotate "cannot get status history" (.mgo (.other m)))
  | none =>
    let docs := (sortByIdDesc (docsOf st.history globalKey)).take size
    .ok (docs.map historyInfoOf)

/-- `getOldestTimeToKeep` locates the identifier of the entity's history
entry ranked exactly `size`-th most recent (descending sort, skip
`size - 1`); `none` when the entity has fewer than `size` entries. -/
def getOldestTimeToKeep (hist : List historicalStatusDoc) (globalKey : String)
    (size : Nat) : Option Nat :=
  match (sortByIdDesc (docsOf hist globalKey)).drop (size - 1) with
  | [] => none
  | d :: _ => some d.id

/-- `getEntitiesWithStatuses` returns the distinct entity ids occurring in
the history collection. -/
def getEntitiesWithStatuses (hist : List historicalStatusDoc) : List String :=
  (hist.map (fun d => d.entityId)).dedup

/-- One pruning step: locate the cutoff for the entity and remove every one
of its history entries with identifier strictly below it (the
`RemoveAll` filtered by `entityid` and `_id < keepUpTo`). -/
def pruneEntity (hist : List historicalStatusDoc) (globalKey : String)
    (size : Nat) : List historicalStatusDoc :=
  match getOldestTimeToKeep hist globalKey size with
  | none => hist
  | some keepUpTo =>
    hist.filter (fun d => !(d.entityId == globalKey && decide (d.id < keepUpTo)))

/-- `PruneStatusHistory` removes status history entries until only the
`maxLogsPerEntity` newest records per entity remain. -/
def PruneStatusHistory (st : St) (maxLogsPerEntity : Nat) : St :=
  let keys := getEntitiesWithStatuses st.history
  let pruned := keys.foldl (fun h k => pruneEntity h k maxLogsPerEntity) st.history
  { st with history := pruned }

/-! ### Helper lemmas -/

theorem probablyUpdateStatusHistory_statuses (st : St) (k : String)
    (doc : statusDoc) (f : Faults) :
    (probablyUpdateStatusHistory st k doc f).statuses = st.statuses := by
  unfold probablyUpdateStatusHistory
  cases f.seqFault <;> cases f.histInsertFault <;> rfl

theorem alistFind_alistUpdate_self (l : List (String × storedStatus))
    (k : String) (nv d : storedStatus) (h : alistFind l k = some d) :
    alistFind (alistUpdate l k nv) k = some nv := by
  induction l with
  | nil => simp [alistFind] at h
  | cons hd tl ih =>
    obtain ⟨k0, v0⟩ := hd
    by_cases hk : k0 = k
    · simp [alistFind, alistUpdate, hk]
    · simp only [alistFind, alistUpdate, if_neg hk] at h ⊢
      exact ih h

/-- The `StatusInfo` view of a stored record, as built by the readers:
data keys unescaped. -/
def statusInfoOf (d : storedStatus) : StatusInfo :=
  { status := d.doc.status, message := d.doc.statusInfo,
    data := unescapeKeys d.doc.statusData, since := d.doc.updated }

/-- When the store apply step reports an error it has not touched the
state. -/
theorem applyStatusOps_err (st : St) (k : String) (doc : statusDoc)
    (revno : Int) (f : Faults) (e : JErr)
    (h : (applyStatusOps st k doc revno f).2 = some e) :
    (applyStatusOps st k doc revno f).1 = st := by
  rcases hap : f.applyFault with _ | m
  · rcases hl : alistFind st.statuses k with _ | d
    · simp [applyStatusOps, hap, hl]
    · by_cases hr : d.txnRevno = revno
      · simp [applyStatusOps, hap, hl, hr] at h
      · simp [applyStatusOps, hap, hl, hr]
  · simp [applyStatusOps, hap]

/-- When `stRun` reports an error it has not touched the store state. -/
theorem stRun_err (st : St) (k : String) (doc : statusDoc)
    (tok : Option Token) (f : Faults) (e : JErr)
    (h : (stRun st k doc tok f).2 = some e) : (stRun st k doc tok f).1 = st := by
  unfold stRun at h ⊢
  cases hw : wrapSource (updateStatusSource st k f) tok with
  | error e2 => rfl
  | ok revno =>
    rw [hw] at h
    exact applyStatusOps_err st k doc revno f e h

/-- An invalidated leadership token makes the wrapped transaction source
fail for any build result. -/
theorem wrapSource_invalid (res : Except JErr Int) (t : Token)
    (hv : t.valid = false) (r : Int) : wrapSource res (some t) ≠ .ok r := by
  intro h
  cases res with
  | error e =>
    have he : wrapSource (Except.error e) (some t) = Except.error e := rfl
    rw [he] at h
    exact Except.noConfusion h
  | ok x =>
    have he : wrapSource (Except.ok x) (some t) =
        (if t.valid then Except.ok x else Except.error (.invalidToken t.errMsg)) := rfl
    rw [he, hv] at h
    simp at h

/-- The error reported by the apply step when the revision assertion holds:
only an injected apply fault can fail it. -/
def applyFaultErr (f : Faults) : Option JErr :=
  match f.applyFault with
  | some m => some (.mgo m)
  | none => none

/-- Closed form of the error component of `stRun` by cases on the store
outcome. -/
theorem stRun_snd (st : St) (k : String) (doc : statusDoc)
    (tok : Option Token) (f : Faults) :
    (stRun st k doc tok f).2 =
      match f.readRevnoFault with
      | some m => some (.mgo (.other m))
      | none =>
        match alistFind st.statuses k with
        | none => some (.mgo .notFound)
        | some _ =>
          match tok with
          | some t =>
            if t.valid then applyFaultErr f else some (.invalidToken t.errMsg)
          | none => applyFaultErr f := by
  rcases hrf : f.readRevnoFault with _ | m
  · rcases hl : alistFind st.statuses k with _ | d
    · simp [stRun, wrapSource, updateStatusSource, hrf, hl]
    · have happ : (applyStatusOps st k doc d.txnRevno f).2 = applyFaultErr f := by
        rcases hap : f.applyFault with _ | m2
        · simp [applyStatusOps, applyFaultErr, hap, hl]
        · simp [applyStatusOps, applyFaultErr, hap]
      rcases tok with _ | t
      · simp only [stRun, wrapSource, updateStatusSource, hrf, hl]
        exact happ
      · by_cases hv : t.valid
        · simp only [stRun, wrapSource, updateStatusSource, hrf, hl, hv, if_true]
          exact happ
        · simp [stRun, wrapSource, updateStatusSource, hrf, hl, hv]
  · simp [stRun, wrapSource, updateStatusSource, hrf]

/-- The statuses component of the state is untouched by the history
recorder, so `stRun` inside `setStatus` reads the caller's statuses. -/
theorem stRun_fst_statuses (st : St) (k : String) (doc : statusDoc)
    (tok : Option Token) (f : Faults) (st2 : St)
    (h : stRun st k doc tok f = (st2, none)) :
    f.applyFault = none ∧
    ∃ d, alistFind st.statuses k = some d ∧
      st2.statuses =
        alistUpdate st.statuses k { doc := doc, txnRevno := d.txnRevno + 1 } ∧
      st2.history = st.history ∧ st2.seq = st.seq ∧ st2.envUUID = st.envUUID := by
  unfold stRun at h
  cases hw : wrapSource (updateStatusSource st k f) tok with
  | error e =>
    rw [hw] at h
    exact absurd h (by simp)
  | ok revno =>
    rw [hw] at h
    have h2 : applyStatusOps st k doc revno f = (st2, none) := h
    rcases hap : f.applyFault with _ | m
    · rcases hl : alistFind st.statuses k with _ | d
      · simp [applyStatusOps, hap, hl] at h2
      · by_cases hr : d.txnRevno = revno
        · refine ⟨rfl, d, rfl, ?_⟩
          simp only [applyStatusOps, hap, hl, hr, if_pos] at h2
          obtain rfl := (Prod.mk.injEq _ _ _ _).mp h2 |>.1.symm
          simp [hr]
        · simp [applyStatusOps, hap, hl, hr] at h2
    · simp [applyStatusOps, hap] at h2

/-- The error component of `setStatus` is the annotated, NotFound-mapped
image of the error component of `stRun`. -/
theorem setStatus_snd (st : St) (p : setStatusParams) (now : Nat)
    (f : Faults) :
    (setStatus st p now f).2 =
      match (stRun (probablyUpdateStatusHistory st p.globalKey
          (buildStatusDoc p now) f) p.globalKey (buildStatusDoc p now)
          p.token f).2 with
      | none => none
      | some e =>
        if e.cause = .mgo .notFound then
          some (.annotate "cannot set status" (.notFoundf p.badge))
        else some (.annotate "cannot set status" e) := by
  simp only [setStatus]
  rcases hrun : stRun (probablyUpdateStatusHistory st p.globalKey
      (buildStatusDoc p now) f) p.globalKey (buildStatusDoc p now)
      p.token f with ⟨st2, oe⟩
  rcases oe with _ | e
  · simp
  · by_cases hc : e.cause = .mgo .notFound <;> simp [hc]

/-- The state component of `setStatus` is exactly the state component of
the inner `stRun`. -/
theorem setStatus_fst (st : St) (p : setStatusParams) (now : Nat)
    (f : Faults) :
    (setStatus st p now f).1 =
      (stRun (probablyUpdateStatusHistory st p.globalKey
        (buildStatusDoc p now) f) p.globalKey (buildStatusDoc p now)
        p.token f).1 := by
  simp only [setStatus]
  rcases hrun : stRun (probablyUpdateStatusHistory st p.globalKey
      (buildStatusDoc p now) f) p.globalKey (buildStatusDoc p now)
      p.token f with ⟨st2, oe⟩
  rcases oe with _ | e
  · simp
  · by_cases hc : e.cause = .mgo .notFound <;> simp [hc]

/-- Successful `setStatus` decomposition: the record existed, and the new
stored record is the built document with the revision advanced. -/
theorem setStatus_ok (st : St) (p : setStatusParams) (now : Nat) (f : Faults)
    (st' : St) (h : setStatus st p now f = (st', none)) :
    ∃ d, alistFind st.statuses p.globalKey = some d ∧
      st'.statuses = alistUpdate
        (probablyUpdateStatusHistory st p.globalKey (buildStatusDoc p now) f).statuses
        p.globalKey { doc := buildStatusDoc p now, txnRevno := d.txnRevno + 1 } ∧
      st'.history =
        (probablyUpdateStatusHistory st p.globalKey (buildStatusDoc p now) f).history := by
  simp only [setStatus] at h
  rcases hrun : stRun (probablyUpdateStatusHistory st p.globalKey
      (buildStatusDoc p now) f) p.globalKey (buildStatusDoc p now)
      p.token f with ⟨st2, oe⟩
  rw [hrun] at h
  rcases oe with _ | e
  · have hst : st2 = st' := by
      simpa using h
    subst hst
    obtain ⟨-, d, hd, hs, hh, -, -⟩ := stRun_fst_statuses _ _ _ _ _ _ hrun
    rw [probablyUpdateStatusHistory_statuses] at hd
    exact ⟨d, hd, by rw [hs, probablyUpdateStatusHistory_statuses], hh⟩
  · by_cases hc : e.cause = .mgo .notFound <;> simp [hc] at h
theorem getStatus_eq (st : St) (k badge : String) (f : Faults) :
    getStatus st k badge f =
      match f.findFault with
      | some m => .error (.annotate "cannot get status" (.mgo (.other m)))
      | none =>
        match alistFind st.statuses k with
        | none => .error (.annotate "cannot get status" (.notFoundf badge))
        | some d => .ok (statusInfoOf d) := by
  unfold getStatus statusInfoOf
  cases f.findFault <;> cases alistFind st.statuses k <;> rfl

/-! ### Ordering lemmas for the descending identifier sort -/

theorem sortByIdDesc_perm (l : List historicalStatusDoc) :
    (sortByIdDesc l).Perm l :=
  List.perm_insertionSort idGE l

theorem sortByIdDesc_sorted (l : List historicalStatusDoc) :
    (sortByIdDesc l).Pairwise idGE :=
  List.sorted_insertionSort idGE l

/-- With pairwise-distinct identifiers the descending sort is strictly
descending. -/
theorem sortByIdDesc_strict (l : List historicalStatusDoc)
    (h : (l.map (fun d => d.id)).Nodup) :
    (sortByIdDesc l).Pairwise (fun a b => b.id < a.id) := by
  have hnd : ((sortByIdDesc l).map (fun d => d.id)).Nodup := by
    have hperm := (sortByIdDesc_perm l).map (fun d => d.id)
    exact hperm.nodup_iff.mpr h
  have hne : (sortByIdDesc l).Pairwise (fun a b => a.id ≠ b.id) := by
    rw [List.Nodup, List.pairwise_map] at hnd
    exact hnd
  have hcomb := (sortByIdDesc_sorted l).and hne
  exact hcomb.imp (fun hab => lt_of_le_of_ne hab.1 (fun he => hab.2 he.symm))

/-- In a strictly descending list, the number of entries with identifier
strictly above the `i`-th entry's is exactly `i`. -/
theorem countP_gt_of_strict :
    ∀ (s : List historicalStatusDoc),
      s.Pairwise (fun a b => b.id < a.id) →
      ∀ (i : Nat) (hi : i < s.length),
        s.countP (fun x => decide ((s.get ⟨i, hi⟩).id < x.id)) = i := by
  intro s
  induction s with
  | nil =>
    intro _ i hi
    exact absurd hi (by simp)
  | cons a t ih =>
    intro hp i hi
    obtain ⟨ha, ht⟩ := List.pairwise_cons.mp hp
    cases i with
    | zero =>
      apply List.countP_eq_zero.mpr
      intro x hx
      have hget : (a :: t).get ⟨0, hi⟩ = a := rfl
      rw [hget]
      rcases List.mem_cons.mp hx with rfl | hx2
      · simp
      · have := ha x hx2
        simp only [decide_eq_true_eq]
        omega
    | succ j =>
      have hj : j < t.length := by simpa using hi
      have hgt : (t.get ⟨j, hj⟩).id < a.id := ha _ (List.get_mem t j hj)
      simp only [List.get_cons_succ]
      rw [List.countP_cons, ih ht j hj]
      have hgt2 : t[j].id < a.id := hgt
      simp [hgt2]

/-- In a strictly descending list, the identifier at a later index is
strictly below the identifier at an earlier index. -/
theorem strict_get_lt (s : List historicalStatusDoc)
    (hp : s.Pairwise (fun a b => b.id < a.id)) (i j : Nat)
    (hi : i < s.length) (hj : j < s.length) (hij : i < j) :
    (s.get ⟨j, hj⟩).id < (s.get ⟨i, hi⟩).id := by
  have := List.pairwise_iff_getElem.mp hp i j hi hj hij
  simpa using this

/-- Conversely, a strictly smaller identifier forces a strictly later
index. -/
theorem strict_lt_get (s : List historicalStatusDoc)
    (hp : s.Pairwise (fun a b => b.id < a.id)) (i j : Nat)
    (hi : i < s.length) (hj : j < s.length)
    (h : (s.get ⟨j, hj⟩).id < (s.get ⟨i, hi⟩).id) : i < j := by
  by_contra hij
  push_neg at hij
  rcases Nat.lt_or_ge j i with hlt | hge
  · have := strict_get_lt s hp j i hj hi hlt
    omega
  · have : i = j := by omega
    subst this
    omega

/-- For distinct identifiers, an entry survives the cutoff at the
`size`-th most recent identifier exactly when fewer than `size` entries of
the list carry a strictly greater identifier. -/
theorem keep_iff_rank (ds : List historicalStatusDoc)
    (hnd : (ds.map (fun d => d.id)).Nodup) (size : Nat) (hsz : 1 ≤ size)
    (hlen : size - 1 < (sortByIdDesc ds).length) (d : historicalStatusDoc)
    (hd : d ∈ ds) :
    (¬ d.id < ((sortByIdDesc ds).get ⟨size - 1, hlen⟩).id) ↔
      ds.countP (fun x => decide (d.id < x.id)) < size := by
  have hstrict : (sortByIdDesc ds).Pairwise (fun a b => b.id < a.id) :=
    sortByIdDesc_strict ds hnd
  have hds : d ∈ sortByIdDesc ds := (sortByIdDesc_perm ds).mem_iff.mpr hd
  obtain ⟨⟨j, hj⟩, hget⟩ := List.mem_iff_get.mp hds
  have hcount : ds.countP (fun x => decide (d.id < x.id)) = j := by
    have hperm := (sortByIdDesc_perm ds).countP_eq
      (fun x => decide (d.id < x.id))
    rw [← hperm, ← hget]
    exact countP_gt_of_strict (sortByIdDesc ds) hstrict j hj
  rw [hcount]
  constructor
  · intro hnot
    by_contra hge
    push_neg at hge
    have hlt := strict_get_lt (sortByIdDesc ds) hstrict (size - 1) j hlen hj
      (by omega)
    rw [hget] at hlt
    exact hnot hlt
  · intro hlt hcontra
    have := strict_lt_get (sortByIdDesc ds) hstrict (size - 1) j hlen hj
      (by rw [hget]; exact hcontra)
    omega

/-! ### Pruning lemmas -/

/-- The effect of one pruning step on the pruned entity's own documents,
expressed as a function of those documents alone. -/
def prunedDocs (ds : List historicalStatusDoc) (size : Nat) :
    List historicalStatusDoc :=
  match (sortByIdDesc ds).drop (size - 1) with
  | [] => ds
  | d :: _ => ds.filter (fun x => !decide (x.id < d.id))

theorem pruneEntity_docsOf_self (h : List historicalStatusDoc) (k : String)
    (size : Nat) :
    docsOf (pruneEntity h k size) k = prunedDocs (docsOf h k) size := by
  unfold pruneEntity getOldestTimeToKeep prunedDocs
  cases hdrop : (sortByIdDesc (docsOf h k)).drop (size - 1) with
  | nil => rfl
  | cons d0 rest =>
    simp only [docsOf, List.filter_filter]
    apply List.filter_congr
    intro a _
    cases ha : a.entityId == k <;> simp [ha]

theorem pruneEntity_docsOf_other (h : List historicalStatusDoc)
    (k k2 : String) (size : Nat) (hne : k2 ≠ k) :
    docsOf (pruneEntity h k size) k2 = docsOf h k2 := by
  unfold pruneEntity getOldestTimeToKeep
  cases hdrop : (sortByIdDesc (docsOf h k)).drop (size - 1) with
  | nil => rfl
  | cons d0 rest =>
    simp only [docsOf, List.filter_filter]
    apply List.filter_congr
    intro a _
    cases ha : a.entityId == k2 with
    | true =>
      have : (a.entityId == k) = false := by
        have := beq_iff_eq.mp ha
        simp [this, hne]
      simp [ha, this]
    | false => simp [ha]

theorem foldl_prune_docsOf (size : Nat) :
    ∀ (keys : List String), keys.Nodup →
    ∀ (h : List historicalStatusDoc) (k : String),
      docsOf (keys.foldl (fun h2 k2 => pruneEntity h2 k2 size) h) k =
        if k ∈ keys then prunedDocs (docsOf h k) size else docsOf h k := by
  intro keys
  induction keys with
  | nil =>
    intro _ h k
    simp
  | cons k0 ks ih =>
    intro hnd h k
    obtain ⟨hk0, hksnd⟩ := List.nodup_cons.mp hnd
    simp only [List.foldl_cons]
    by_cases hkk : k = k0
    · subst hkk
      rw [ih hksnd (pruneEntity h k size) k, if_neg hk0,
        pruneEntity_docsOf_self, if_pos (List.mem_cons_self k ks)]
    · rw [ih hksnd (pruneEntity h k0 size) k,
        pruneEntity_docsOf_other h k0 k size hkk]
      by_cases hkin : k ∈ ks
      · rw [if_pos hkin, if_pos (List.mem_cons_of_mem k0 hkin)]
      · rw [if_neg hkin, if_neg (by simp [List.mem_cons, hkk, hkin])]

theorem foldl_prune_subset (size : Nat) :
    ∀ (keys : List String) (h : List historicalStatusDoc)
      (d : historicalStatusDoc),
      d ∈ keys.foldl (fun h2 k2 => pruneEntity h2 k2 size) h → d ∈ h := by
  intro keys
  induction keys with
  | nil =>
    intro h d hd
    simpa using hd
  | cons k0 ks ih =>
    intro h d hd
    simp only [List.foldl_cons] at hd
    have hmem := ih (pruneEntity h k0 size) d hd
    unfold pruneEntity at hmem
    cases hc : getOldestTimeToKeep h k0 size with
    | none =>
      rw [hc] at hmem
      exact hmem
    | some cut =>
      rw [hc] at hmem
      exact (List.mem_filter.mp hmem).1

theorem docsOf_nil_of_not_mem (h : List historicalStatusDoc) (k : String)
    (hk : k ∉ getEntitiesWithStatuses h) : docsOf h k = [] := by
  rw [docsOf, List.filter_eq_nil_iff]
  intro d hd hdk
  apply hk
  rw [getEntitiesWithStatuses, List.mem_dedup]
  exact List.mem_map.mpr ⟨d, hd, beq_iff_eq.mp hdk⟩

theorem countP_lt_of_mem_not {α : Type} (l : List α) (p : α → Bool) (x : α)
    (hx : x ∈ l) (hpx : p x = false) : List.countP p l < l.length := by
  induction l with
  | nil => cases hx
  | cons a t ih =>
    rw [List.countP_cons]
    rcases List.mem_cons.mp hx with rfl | hmem
    · have := List.countP_le_length p (l := t)
      simp [hpx]
      omega
    · have := ih hmem
      cases hpa : p a <;> simp [hpa] <;> omega

/-! ### Example fixtures used by the witnesses -/

def exDocOld : statusDoc :=
  { envUUID := "e", status := "old", statusInfo := "m", statusData := [], updated := some 5, neverSet := true }

def exSt : St :=
  { statuses := [("u", { doc := exDocOld, txnRevno := 7 })], history := [], seq := 0, envUUID := "env1" }

def exParams : setStatusParams :=
  { badge := "unit", globalKey := "u", status := "active", message := "ok", rawData := [("a.b", Value.str "x")], token := none }

def exInvalidToken : Token := { valid := false, errMsg := "leadership lost" }

def mkHist (i : Nat) (k : String) : historicalStatusDoc :=
  { id := i, envUUID := "e", entityId := k, status := "s", statusInfo := "", statusData := [], updated := some i }

def exHSt : St :=
  { statuses := [],
    history := [mkHist 0 "a", mkHist 1 "b", mkHist 2 "a", mkHist 3 "a", mkHist 4 "b", mkHist 5 "a"],
    seq := 6, envUUID := "e" }

/-! ### Claim theorems -/

/-- C6: `getStatus(globalKey, badge)` fails with a NotFound error embedding
the caller-supplied badge exactly when no current-status record exists for
that key; on a successful read it returns the stored status, message and
timestamp with the data map's keys unescaped; and any other store failure
is propagated annotated with "cannot get status". -/
theorem getStatus_spec (st : St) (k badge : String) (f : Faults) :
    ((∃ e, getStatus st k badge f = .error e ∧ e.cause = .notFoundf badge) ↔
      (f.findFault = none ∧ alistFind st.statuses k = none)) ∧
    (∀ d, f.findFault = none → alistFind st.statuses k = some d →
      getStatus st k badge f = .ok (statusInfoOf d)) ∧
    (∀ m, f.findFault = some m →
      getStatus st k badge f =
        .error (.annotate "cannot get status" (.mgo (.other m)))) := by
  refine ⟨?_, ?_, ?_⟩
  · cases hf : f.findFault with
    | some m =>
      constructor
      · rintro ⟨e, he, hc⟩
        simp only [getStatus_eq, hf] at he
        obtain rfl := Except.error.inj he
        simp [JErr.cause] at hc
      · rintro ⟨h1, _⟩
        exact Option.noConfusion h1
    | none =>
      cases hl : alistFind st.statuses k with
      | none =>
        constructor
        · intro _
          exact ⟨rfl, rfl⟩
        · intro _
          refine ⟨JErr.annotate "cannot get status" (JErr.notFoundf badge), ?_, ?_⟩
          · simp only [getStatus_eq, hf, hl]
          · simp [JErr.cause]
      | some d =>
        constructor
        · rintro ⟨e, he, hc⟩
          simp only [getStatus_eq, hf, hl] at he
          exact Except.noConfusion he
        · rintro ⟨_, h2⟩
          exact Option.noConfusion h2
  · intro d hf hl
    simp only [getStatus_eq, hf, hl]
  · intro m hf
    simp only [getStatus_eq, hf]

/-- C6 witness. -/
theorem getStatus_spec_witness :
    let st : St := { statuses := [], history := [], seq := 0, envUUID := "e" }
    (∃ e, getStatus st "u" "unit" noFaults = .error e ∧
        e.cause = .notFoundf "unit") ↔
      (noFaults.findFault = none ∧ alistFind st.statuses "u" = none) :=
  (getStatus_spec { statuses := [], history := [], seq := 0, envUUID := "e" }
    "u" "unit" noFaults).1

/-- C5: a `setStatus` call whose params carry an already-invalidated
leadership token leaves the stored current-status collection unchanged and
surfaces an error to the caller. -/
theorem setStatus_invalid_token (st : St) (p : setStatusParams) (now : Nat)
    (f : Faults) (t : Token) (ht : p.token = some t)
    (hv : t.valid = false) :
    (setStatus st p now f).1.statuses = st.statuses ∧
    (setStatus st p now f).2 ≠ none := by
  unfold setStatus
  cases hr : stRun (probablyUpdateStatusHistory st p.globalKey
      (buildStatusDoc p now) f) p.globalKey (buildStatusDoc p now) p.token f with
  | mk st2 oe =>
    cases oe with
    | none =>
      exfalso
      unfold stRun at hr
      rw [ht] at hr
      cases hw : wrapSource (updateStatusSource (probablyUpdateStatusHistory st
          p.globalKey (buildStatusDoc p now) f) p.globalKey f) (some t) with
      | error e2 => rw [hw] at hr; simp at hr
      | ok revno => exact wrapSource_invalid _ t hv revno hw
    | some e =>
      have h1 : st2 = probablyUpdateStatusHistory st p.globalKey
          (buildStatusDoc p now) f := by
        have := stRun_err _ _ _ _ _ e (by rw [hr])
        rw [hr] at this
        exact this
      subst h1
      by_cases hc : e.cause = .mgo .notFound <;>
        simp [hr, hc, probablyUpdateStatusHistory_statuses]

/-- C3: `setStatus` returns NotFound carrying the caller-supplied badge in
exactly two situations — no current-status record exists for the key, or
the optimistic-concurrency revision assertion failed (which the store
reports in the same not-found error class) — and every other
underlying-store failure is propagated as a generic error annotated with
"cannot set status" rather than being mapped to NotFound. -/
theorem setStatus_error_taxonomy (st : St) (p : setStatusParams) (now : Nat)
    (f : Faults) :
    ((∃ e, (setStatus st p now f).2 = some e ∧ e.cause = .notFoundf p.badge) ↔
      (f.readRevnoFault = none ∧
        (alistFind st.statuses p.globalKey = none ∨
          ((∃ d, alistFind st.statuses p.globalKey = some d) ∧
            tokenOK p.token = true ∧ f.applyFault = some .notFound)))) ∧
    (∀ m, f.readRevnoFault = some m →
      (setStatus st p now f).2 =
        some (.annotate "cannot set status" (.mgo (.other m)))) ∧
    (∀ m, f.readRevnoFault = none →
      (∃ d, alistFind st.statuses p.globalKey = some d) →
      tokenOK p.token = true → f.applyFault = some (.other m) →
      (setStatus st p now f).2 =
        some (.annotate "cannot set status" (.mgo (.other m)))) := by
  have hsnd := setStatus_snd st p now f
  rw [stRun_snd, probablyUpdateStatusHistory_statuses] at hsnd
  refine ⟨?_, ?_, ?_⟩
  · rcases hrf : f.readRevnoFault with _ | m
    · rcases hl : alistFind st.statuses p.globalKey with _ | d
      · simp [hrf, hl, JErr.cause] at hsnd
        simp [hsnd, JErr.cause]
      · rcases htok : p.token with _ | t
        · rcases hap : f.applyFault with _ | m2
          · simp [hrf, hl, htok, hap, applyFaultErr] at hsnd
            simp [hsnd, hap, tokenOK]
          · cases m2 with
            | notFound =>
              simp [hrf, hl, htok, hap, applyFaultErr, JErr.cause] at hsnd
              simp [hsnd, hap, tokenOK, JErr.cause]
            | other msg =>
              simp [hrf, hl, htok, hap, applyFaultErr, JErr.cause] at hsnd
              simp [hsnd, hap, tokenOK, JErr.cause]
        · by_cases hv : t.valid
          · rcases hap : f.applyFault with _ | m2
            · simp [hrf, hl, htok, hv, hap, applyFaultErr] at hsnd
              simp [hsnd, hap, tokenOK, hv]
            · cases m2 with
              | notFound =>
                simp [hrf, hl, htok, hv, hap, applyFaultErr, JErr.cause] at hsnd
                simp [hsnd, hap, tokenOK, hv, JErr.cause]
              | other msg =>
                simp [hrf, hl, htok, hv, hap, applyFaultErr, JErr.cause] at hsnd
                simp [hsnd, hap, tokenOK, hv, JErr.cause]
          · simp [hrf, hl, htok, hv, JErr.cause] at hsnd
            simp [hsnd, tokenOK, hv, JErr.cause]
    · simp [hrf, JErr.cause] at hsnd
      simp [hsnd, JErr.cause]
  · intro m hm
    simp [hm, JErr.cause] at hsnd
    simp [hsnd, JErr.cause]
  · rintro m hrf ⟨d, hd⟩ htv hap
    rcases htok : p.token with _ | t
    · simp [hrf, hd, htok, hap, applyFaultErr, JErr.cause] at hsnd
      simp [hsnd, JErr.cause]
    · rw [htok] at htv
      simp only [tokenOK] at htv
      simp [hrf, hd, htok, htv, hap, applyFaultErr, JErr.cause] at hsnd
      simp [hsnd, JErr.cause]

/-- C3 witness. -/
theorem setStatus_error_taxonomy_witness :
    (∃ e, (setStatus exSt { exParams with globalKey := "gone" } 0 noFaults).2
        = some e ∧ e.cause = .notFoundf "unit") ↔
      (noFaults.readRevnoFault = none ∧
        (alistFind exSt.statuses "gone" = none ∨
          ((∃ d, alistFind exSt.statuses "gone" = some d) ∧
            tokenOK ({ exParams with globalKey := "gone" } :
              setStatusParams).token = true ∧
            noFaults.applyFault = some .notFound))) :=
  (setStatus_error_taxonomy exSt { exParams with globalKey := "gone" }
    0 noFaults).1

/-- C5 witness. -/
theorem setStatus_invalid_token_witness :
    let p : setStatusParams := { exParams with token := some exInvalidToken }
    (setStatus exSt p 0 noFaults).1.statuses = exSt.statuses ∧
    (setStatus exSt p 0 noFaults).2 ≠ none :=
  setStatus_invalid_token exSt { exParams with token := some exInvalidToken }
    0 noFaults exInvalidToken rfl rfl

/-- C9: every successful `setStatus` overwrites the whole stored
current-status record with the newly built document, which always carries
NeverSet false and an empty environment identifier regardless of the
record's previous values; only the store-assigned revision is advanced. -/
theorem setStatus_overwrites (st : St) (p : setStatusParams) (now : Nat)
    (f : Faults) (st' : St) (h : setStatus st p now f = (st', none)) :
    ∃ old, alistFind st.statuses p.globalKey = some old ∧
      alistFind st'.statuses p.globalKey = some
        { doc := { envUUID := "", status := p.status, statusInfo := p.message,
                   statusData := escapeKeys p.rawData,
                   updated := some (nowToTheSecond now), neverSet := false },
          txnRevno := old.txnRevno + 1 } := by
  obtain ⟨d, hd, hs, -⟩ := setStatus_ok st p now f st' h
  refine ⟨d, hd, ?_⟩
  rw [hs, probablyUpdateStatusHistory_statuses]
  exact alistFind_alistUpdate_self _ _ _ _ hd

/-- C9 witness. -/
theorem setStatus_overwrites_witness :
    ∃ old, alistFind exSt.statuses "u" = some old ∧
      alistFind (setStatus exSt exParams 2500000000 noFaults).1.statuses "u"
        = some
        { doc := { envUUID := "", status := "active", statusInfo := "ok",
                   statusData := escapeKeys [("a.b", Value.str "x")],
                   updated := some (nowToTheSecond 2500000000),
                   neverSet := false },
          txnRevno := old.txnRevno + 1 } :=
  setStatus_overwrites exSt exParams 2500000000 noFaults
    (setStatus exSt exParams 2500000000 noFaults).1 (by rfl)

/-- C8: the history recorder runs before the authoritative conditional
update — when the recorder itself does not fault, the new history entry is
present in the post-call state whether or not the authoritative write
succeeded — and the timestamp written into both the history entry and, on
success, the new current-status record is the current time truncated to
one-second precision. -/
theorem setStatus_history_first (st : St) (p : setStatusParams) (now : Nat)
    (f : Faults) (h1 : f.seqFault = none) (h2 : f.histInsertFault = none) :
    (setStatus st p now f).1.history =
      { id := st.seq, envUUID := st.envUUID, entityId := p.globalKey,
        status := p.status, statusInfo := p.message,
        statusData := escapeKeys p.rawData,
        updated := some (nowToTheSecond now) } :: st.history ∧
    (∀ st', setStatus st p now f = (st', none) →
      ∃ d, alistFind st'.statuses p.globalKey = some d ∧
        d.doc.updated = some (nowToTheSecond now)) := by
  constructor
  · have hist1 : (probablyUpdateStatusHistory st p.globalKey
        (buildStatusDoc p now) f).history =
        { id := st.seq, envUUID := st.envUUID, entityId := p.globalKey,
          status := p.status, statusInfo := p.message,
          statusData := escapeKeys p.rawData,
          updated := some (nowToTheSecond now) } :: st.history := by
      simp [probablyUpdateStatusHistory, h1, h2, buildStatusDoc]
    simp only [setStatus]
    rcases hrun : stRun (probablyUpdateStatusHistory st p.globalKey
        (buildStatusDoc p now) f) p.globalKey (buildStatusDoc p now)
        p.token f with ⟨st2, oe⟩
    rcases oe with _ | e
    · obtain ⟨-, d, -, -, hh, -, -⟩ := stRun_fst_statuses _ _ _ _ _ _ hrun
      simpa [hh] using hist1
    · have hst : st2 = probablyUpdateStatusHistory st p.globalKey
          (buildStatusDoc p now) f := by
        have := stRun_err _ _ _ _ _ e (by rw [hrun])
        rw [hrun] at this
        exact this
      by_cases hc : e.cause = .mgo .notFound <;> simp [hc, hst, hist1]
  · intro st' hok
    obtain ⟨d, hd, hs, -⟩ := setStatus_ok st p now f st' hok
    have hfind : alistFind st'.statuses p.globalKey =
        some { doc := buildStatusDoc p now, txnRevno := d.txnRevno + 1 } := by
      rw [hs, probablyUpdateStatusHistory_statuses]
      exact alistFind_alistUpdate_self _ _ _ _ hd
    exact ⟨_, hfind, rfl⟩

/-- C8 witness. -/
theorem setStatus_history_first_witness :
    noFaults.seqFault = none ∧ noFaults.histInsertFault = none ∧
    (setStatus exSt exParams 2500000000 noFaults).1.history =
      { id := exSt.seq, envUUID := exSt.envUUID, entityId := "u",
        status := "active", statusInfo := "ok",
        statusData := escapeKeys [("a.b", Value.str "x")],
        updated := some (nowToTheSecond 2500000000) } :: exSt.history :=
  ⟨rfl, rfl,
    (setStatus_history_first exSt exParams 2500000000 noFaults rfl rfl).1⟩

/-- C7: the history recorder never fails the caller's primary operation:
when sequence allocation fails the recorder leaves the state entirely
untouched (no insert is attempted), when the insert fails the history is
untouched, and in every case `setStatus` returns the same error outcome and
the same current-status collection as it would with a fault-free
recorder. -/
theorem recorder_never_fails (st : St) (k : String) (doc : statusDoc)
    (f : Faults) (p : setStatusParams) (now : Nat) :
    (f.seqFault ≠ none → probablyUpdateStatusHistory st k doc f = st) ∧
    (f.seqFault = none → f.histInsertFault ≠ none →
      (probablyUpdateStatusHistory st k doc f).history = st.history) ∧
    (setStatus st p now f).2 = (setStatus st p now (clearRecorderFaults f)).2 ∧
    (setStatus st p now f).1.statuses =
      (setStatus st p now (clearRecorderFaults f)).1.statuses := by
  refine ⟨?_, ?_, ?_⟩
  · intro hs
    rcases hsf : f.seqFault with _ | e
    · exact absurd hsf hs
    · simp [probablyUpdateStatusHistory, hsf]
  · intro hs hi
    rcases hif : f.histInsertFault with _ | e
    · exact absurd hif hi
    · simp [probablyUpdateStatusHistory, hs, hif]
  · have e1 := stRun_snd (probablyUpdateStatusHistory st p.globalKey
        (buildStatusDoc p now) f) p.globalKey (buildStatusDoc p now) p.token f
    have e2 := stRun_snd (probablyUpdateStatusHistory st p.globalKey
        (buildStatusDoc p now) (clearRecorderFaults f)) p.globalKey
        (buildStatusDoc p now) p.token (clearRecorderFaults f)
    rw [probablyUpdateStatusHistory_statuses] at e1 e2
    have hsame : (stRun (probablyUpdateStatusHistory st p.globalKey
        (buildStatusDoc p now) f) p.globalKey (buildStatusDoc p now)
        p.token f).2 =
        (stRun (probablyUpdateStatusHistory st p.globalKey
          (buildStatusDoc p now) (clearRecorderFaults f)) p.globalKey
          (buildStatusDoc p now) p.token (clearRecorderFaults f)).2 := by
      rw [e1, e2]
      have hc1 : (clearRecorderFaults f).readRevnoFault = f.readRevnoFault := rfl
      have hc2 : applyFaultErr (clearRecorderFaults f) = applyFaultErr f := rfl
      simp only [hc1, hc2]
    constructor
    · rw [setStatus_snd, setStatus_snd, hsame]
    · rw [setStatus_fst, setStatus_fst]
      rcases hrunf : stRun (probablyUpdateStatusHistory st p.globalKey
          (buildStatusDoc p now) f) p.globalKey (buildStatusDoc p now)
          p.token f with ⟨s2f, oef⟩
      rcases hrunc : stRun (probablyUpdateStatusHistory st p.globalKey
          (buildStatusDoc p now) (clearRecorderFaults f)) p.globalKey
          (buildStatusDoc p now) p.token (clearRecorderFaults f) with ⟨s2c, oec⟩
      rw [hrunf, hrunc] at hsame
      rcases oef with _ | e
      · have hoec : oec = none := hsame.symm
        subst hoec
        obtain ⟨-, d, hd, hsf, -, -, -⟩ :=
          stRun_fst_statuses _ _ _ _ _ _ hrunf
        obtain ⟨-, d', hd', hsc, -, -, -⟩ :=
          stRun_fst_statuses _ _ _ _ _ _ hrunc
        rw [probablyUpdateStatusHistory_statuses] at hd hd' hsf hsc
        obtain rfl : d = d' := Option.some.inj (hd.symm.trans hd')
        rw [hsf, hsc]
      · have hoec : oec = some e := hsame.symm
        subst hoec
        have hf := stRun_err _ _ _ _ _ e (by rw [hrunf])
        have hc := stRun_err _ _ _ _ _ e (by rw [hrunc])
        rw [hrunf] at hf
        rw [hrunc] at hc
        rw [hf, hc, probablyUpdateStatusHistory_statuses,
          probablyUpdateStatusHistory_statuses]

/-- C7 witness. -/
theorem recorder_never_fails_witness :
    let f : Faults := { noFaults with seqFault := some (.other "seq down") }
    f.seqFault ≠ none ∧
    probablyUpdateStatusHistory exSt "u" exDocOld f = exSt ∧
    (setStatus exSt exParams 0 f).2 =
      (setStatus exSt exParams 0 (clearRecorderFaults f)).2 :=
  let f : Faults := { noFaults with seqFault := some (.other "seq down") }
  ⟨by simp, (recorder_never_fails exSt "u" exDocOld f exParams 0).1 (by simp),
    (recorder_never_fails exSt "u" exDocOld f exParams 0).2.2.1⟩

/-- C2: for every nested string-keyed map whose keys contain no
pre-existing reserved (escaped-form) characters, unescape(escape(m)) = m;
the key transform recurses into nested string-keyed maps only and passes
every other value type through untouched. -/
theorem escapeKeys_roundTrip (m : List (String × Value))
    (hm : mapOK m = true) :
    unescapeKeys (escapeKeys m) = m ∧
    (∀ (f : String → String) (k : String) (v : Value)
      (rest : List (String × Value)), (∀ sub, v ≠ Value.map sub) →
      mapKeys f ((k, v) :: rest) = (f k, v) :: mapKeys f rest) := by
  constructor
  · exact unescapeKeys_escapeKeys m hm
  · intro f k v rest hv
    cases v with
    | map sub => exact absurd rfl (hv sub)
    | str s => simp [mapKeys]
    | num n => simp [mapKeys]
    | boolean b => simp [mapKeys]

/-- C2 witness. -/
theorem escapeKeys_roundTrip_witness :
    mapOK [("a.b", Value.map [("c$d", Value.num 3)]), ("e", Value.str "f")]
      = true ∧
    unescapeKeys (escapeKeys
      [("a.b", Value.map [("c$d", Value.num 3)]), ("e", Value.str "f")]) =
      [("a.b", Value.map [("c$d", Value.num 3)]), ("e", Value.str "f")] :=
  have hm : mapOK
      [("a.b", Value.map [("c$d", Value.num 3)]), ("e", Value.str "f")]
      = true := by
    simp [mapOK, strOK, fullWidthDot, fullWidthDollar]
  ⟨hm, (escapeKeys_roundTrip _ hm).1⟩

/-! ### Heap-level model of `mapKeys` for the mutation-freedom claim

Go maps are mutable references. To state that `mapKeys` never mutates its
argument, the transform is re-embedded over an explicit heap: a map value
is an address into a store of association lists, `make` allocates a fresh
address at the end of the heap, and the only writes performed are to the
freshly allocated result map, exactly as in the source (`result := make`;
`result[f(key)] = value`). Recursion is fuelled because reference graphs
are not structurally decreasing. -/

inductive HVal where
  | str : String → HVal
  | num : Int → HVal
  | boolean : Bool → HVal
  | ref : Nat → HVal
deriving DecidableEq, Repr

/-- The heap: address `a` holds the entries of the map object allocated
`a`-th. -/
abbrev Heap := List (List (String × HVal))

mutual

/-- Heap-level `mapKeys`: read the entries at the argument address,
transform them (recursing through nested map references), then allocate
the result as a fresh map object. -/
def mapKeysHeap (f : String → String) : Nat → Heap → Nat →
    Option (Heap × Nat)
  | 0, _, _ => none
  | Nat.succ fuel, heap, r =>
    (heap[r]?).bind (fun entries =>
      (mapEntriesHeap f fuel heap entries).bind (fun pr =>
        some (pr.1 ++ [pr.2], pr.1.length)))

/-- The entry loop of heap-level `mapKeys`: nested map references are
replaced by references to freshly transformed copies, every other value is
passed through, and `f` is applied to each key. -/
def mapEntriesHeap (f : String → String) : Nat → Heap →
    List (String × HVal) → Option (Heap × List (String × HVal))
  | _, heap, [] => some (heap, [])
  | fuel, heap, (k, HVal.ref r) :: rest =>
    (mapKeysHeap f fuel heap r).bind (fun pr =>
      (mapEntriesHeap f fuel pr.1 rest).bind (fun pr2 =>
        some (pr2.1, (f k, HVal.ref pr.2) :: pr2.2)))
  | fuel, heap, (k, v) :: rest =>
    (mapEntriesHeap f fuel heap rest).bind (fun pr2 =>
      some (pr2.1, (f k, v) :: pr2.2))

end

/-- Frame property of the outer transform at a given fuel: the result heap
extends the input heap (all pre-existing map objects are untouched) and
the returned address is fresh. -/
def keysFrame (fuel : Nat) : Prop :=
  ∀ (f : String → String) (heap : Heap) (r : Nat) (out : Heap × Nat),
    mapKeysHeap f fuel heap r = some out →
    (∃ ext, out.1 = heap ++ ext) ∧ heap.length ≤ out.2

/-- Frame property of the entry loop at a given fuel. -/
def entriesFrame (fuel : Nat) : Prop :=
  ∀ (f : String → String) (heap : Heap) (l : List (String × HVal))
    (out : Heap × List (String × HVal)),
    mapEntriesHeap f fuel heap l = some out → ∃ ext, out.1 = heap ++ ext

theorem entriesFrame_of_keysFrame (fuel : Nat) (hp : keysFrame fuel) :
    entriesFrame fuel := by
  intro f heap l
  induction l generalizing heap with
  | nil =>
    intro out h
    simp only [mapEntriesHeap] at h
    obtain rfl := Option.some.inj h
    exact ⟨[], by simp⟩
  | cons hd tl ih =>
    obtain ⟨k, v⟩ := hd
    intro out h
    cases v with
    | ref r =>
      simp only [mapEntriesHeap, Option.bind_eq_some] at h
      obtain ⟨⟨heap1, r1⟩, hk, ⟨heap2, outl⟩, he, hout⟩ := h
      obtain rfl := Option.some.inj hout
      obtain ⟨ext1, hext1⟩ := (hp f heap r _ hk).1
      obtain ⟨ext2, hext2⟩ := ih heap1 (heap2, outl) he
      refine ⟨ext1 ++ ext2, ?_⟩
      simp only at hext1 hext2 ⊢
      rw [hext2, hext1, List.append_assoc]
    | str s =>
      simp only [mapEntriesHeap, Option.bind_eq_some] at h
      obtain ⟨⟨heap2, outl⟩, he, hout⟩ := h
      obtain rfl := Option.some.inj hout
      exact ih heap (heap2, outl) he
    | num n =>
      simp only [mapEntriesHeap, Option.bind_eq_some] at h
      obtain ⟨⟨heap2, outl⟩, he, hout⟩ := h
      obtain rfl := Option.some.inj hout
      exact ih heap (heap2, outl) he
    | boolean b =>
      simp only [mapEntriesHeap, Option.bind_eq_some] at h
      obtain ⟨⟨heap2, outl⟩, he, hout⟩ := h
      obtain rfl := Option.some.inj hout
      exact ih heap (heap2, outl) he

theorem heapFrame (fuel : Nat) : keysFrame fuel ∧ entriesFrame fuel := by
  induction fuel with
  | zero =>
    have hp : keysFrame 0 := by
      intro f heap r out h
      simp [mapKeysHeap] at h
    exact ⟨hp, entriesFrame_of_keysFrame 0 hp⟩
  | succ n ihn =>
    have hp : keysFrame (n + 1) := by
      intro f heap r out h
      simp only [mapKeysHeap, Option.bind_eq_some] at h
      obtain ⟨entries, hg, ⟨heap1, outl⟩, he, hout⟩ := h
      obtain rfl := Option.some.inj hout
      obtain ⟨ext, hext⟩ := ihn.2 f heap entries (heap1, outl) he
      simp only at hext
      constructor
      · exact ⟨ext ++ [outl], by rw [hext, List.append_assoc]⟩
      · simp [hext]
    exact ⟨hp, entriesFrame_of_keysFrame (n + 1) hp⟩

/-- C10: the key transform never mutates its argument: whatever fuel,
input heap and address it is run on, every pre-existing map object reads
back unchanged from the result heap, and the returned map is a freshly
allocated one (its address lies beyond the whole input heap). -/
theorem mapKeysHeap_no_mutation (f : String → String) (fuel : Nat)
    (heap : Heap) (r : Nat) (heap' : Heap) (r' : Nat)
    (h : mapKeysHeap f fuel heap r = some (heap', r')) :
    (∀ a, a < heap.length → heap'[a]? = heap[a]?) ∧
    heap.length ≤ r' := by
  obtain ⟨⟨ext, hext⟩, hlen⟩ := (heapFrame fuel).1 f heap r (heap', r') h
  simp only at hext
  constructor
  · intro a ha
    rw [hext]
    exact List.getElem?_append_left ha
  · exact hlen

/-- C10 witness. -/
theorem mapKeysHeap_no_mutation_witness :
    mapKeysHeap escapeReplace 2 [[("a", HVal.str "x")]] 0 =
      some ([[("a", HVal.str "x")], [(escapeReplace "a", HVal.str "x")]], 1) ∧
    (∀ a, a < 1 →
      ([[("a", HVal.str "x")], [(escapeReplace "a", HVal.str "x")]] :
        Heap)[a]? = ([[("a", HVal.str "x")]] : Heap)[a]?) ∧
    (1 : Nat) ≤ 1 :=
  have hrun : mapKeysHeap escapeReplace 2 [[("a", HVal.str "x")]] 0 =
      some ([[("a", HVal.str "x")], [(escapeReplace "a", HVal.str "x")]], 1) := by
    simp [mapKeysHeap, mapEntriesHeap]
  ⟨hrun, (mapKeysHeap_no_mutation escapeReplace 2 [[("a", HVal.str "x")]] 0
    [[("a", HVal.str "x")], [(escapeReplace "a", HVal.str "x")]] 1 hrun).1,
   (mapKeysHeap_no_mutation escapeReplace 2 [[("a", HVal.str "x")]] 0
    [[("a", HVal.str "x")], [(escapeReplace "a", HVal.str "x")]] 1 hrun).2⟩

/-- C4: the history reader returns at most `size` entries of the entity's
history, strictly ordered by descending identifier with data keys
unescaped in every returned entry; it fails with NotFound("status
history") exactly when the underlying query reports not-found, while an
entity with zero history entries yields an empty sequence and no error. -/
theorem statusHistory_spec (st : St) (k : String) (size : Nat) (f : Faults)
    (hids : (st.history.map (fun d => d.id)).Nodup) :
    ((∃ e, statusHistory st k size f = .error e ∧
        e.cause = .notFoundf "status history") ↔
      f.histQueryFault = some .notFound) ∧
    (f.histQueryFault = none →
      ∃ ds : List historicalStatusDoc,
        statusHistory st k size f = .ok (ds.map historyInfoOf) ∧
        ds.length ≤ size ∧
        (∀ d ∈ ds, d ∈ st.history ∧ d.entityId = k) ∧
        ds.Pairwise (fun a b => b.id < a.id)) ∧
    (f.histQueryFault = none → docsOf st.history k = [] →
      statusHistory st k size f = .ok []) := by
  refine ⟨?_, ?_, ?_⟩
  · rcases hq : f.histQueryFault with _ | m
    · simp [statusHistory, hq]
    · cases m with
      | notFound =>
        simp [statusHistory, hq, JErr.cause]
      | other m2 =>
        simp only [statusHistory, hq]
        constructor
        · rintro ⟨e, he, hc⟩
          obtain rfl := Except.error.inj he
          simp [JErr.cause] at hc
        · intro hcontra
          exact absurd (Option.some.inj hcontra) (by simp)
  · intro hq
    refine ⟨(sortByIdDesc (docsOf st.history k)).take size, ?_, ?_, ?_, ?_⟩
    · simp only [statusHistory, hq]
    · exact List.length_take_le size _
    · intro d hdm
      have hds : d ∈ sortByIdDesc (docsOf st.history k) :=
        List.mem_of_mem_take hdm
      have hmem : d ∈ docsOf st.history k :=
        (sortByIdDesc_perm _).mem_iff.mp hds
      rw [docsOf, List.mem_filter] at hmem
      exact ⟨hmem.1, by simpa using hmem.2⟩
    · apply List.Pairwise.take
      apply sortByIdDesc_strict
      have hsub := (List.filter_sublist
        (p := fun d => d.entityId == k) st.history).map (fun d => d.id)
      exact hids.sublist hsub
  · intro hq hnil
    simp [statusHistory, hq, hnil, sortByIdDesc]

/-- C4 witness. -/
theorem statusHistory_spec_witness :
    (exHSt.history.map (fun d => d.id)).Nodup ∧
    (∃ ds : List historicalStatusDoc,
      statusHistory exHSt "a" 2 noFaults = .ok (ds.map historyInfoOf) ∧
      ds.length ≤ 2 ∧
      (∀ d ∈ ds, d ∈ exHSt.history ∧ d.entityId = "a") ∧
      ds.Pairwise (fun a b => b.id < a.id)) :=
  ⟨by decide,
    (statusHistory_spec exHSt "a" 2 noFaults (by decide)).2.1 rfl⟩

/-- C1: `PruneStatusHistory` deletes, for every entity owning at least
`maxLogsPerEntity` history entries, exactly those of the entity's entries
whose identifier is strictly below the identifier of the entity's
`maxLogsPerEntity`-th most recent entry (so exactly the entries with the
greatest identifiers remain — an entry survives iff fewer than
`maxLogsPerEntity` entries of the same entity have a greater identifier);
it never deletes an entry belonging to a different entity (each entity's
post-state is a function of that entity's own entries), and entities with
fewer entries than the threshold are left untouched. -/
theorem PruneStatusHistory_spec (st : St) (size : Nat) (k : String)
    (hsz : 1 ≤ size)
    (hids : (st.history.map (fun d => d.id)).Nodup) :
    (∀ d ∈ (PruneStatusHistory st size).history, d ∈ st.history) ∧
    ((docsOf st.history k).length ≤ size →
      docsOf (PruneStatusHistory st size).history k = docsOf st.history k) ∧
    (size ≤ (docsOf st.history k).length →
      ∃ cut, getOldestTimeToKeep st.history k size = some cut ∧
        docsOf (PruneStatusHistory st size).history k =
          (docsOf st.history k).filter (fun d => !decide (d.id < cut))) ∧
    (∀ d ∈ docsOf st.history k,
      d ∈ docsOf (PruneStatusHistory st size).history k ↔
        (docsOf st.history k).countP
          (fun x => decide (d.id < x.id)) < size) := by
  have hph : (PruneStatusHistory st size).history =
      (getEntitiesWithStatuses st.history).foldl
        (fun h2 k2 => pruneEntity h2 k2 size) st.history := rfl
  have hmain : docsOf (PruneStatusHistory st size).history k =
      if k ∈ getEntitiesWithStatuses st.history then
        prunedDocs (docsOf st.history k) size
      else docsOf st.history k := by
    rw [hph]
    exact foldl_prune_docsOf size _ (List.nodup_dedup _) st.history k
  have hnd2 : ((docsOf st.history k).map (fun d => d.id)).Nodup := by
    have hsub := (List.filter_sublist
      (p := fun d => d.entityId == k) st.history).map (fun d => d.id)
    exact hids.sublist hsub
  have hslen : (sortByIdDesc (docsOf st.history k)).length =
      (docsOf st.history k).length := (sortByIdDesc_perm _).length_eq
  have hsubset : ∀ d ∈ (PruneStatusHistory st size).history,
      d ∈ st.history := by
    intro d hd
    rw [hph] at hd
    exact foldl_prune_subset size _ st.history d hd
  by_cases hkin : k ∈ getEntitiesWithStatuses st.history
  · rw [hmain, if_pos hkin]
    cases hdrop : (sortByIdDesc (docsOf st.history k)).drop (size - 1) with
    | nil =>
      have hle : (sortByIdDesc (docsOf st.history k)).length ≤ size - 1 :=
        List.drop_eq_nil_iff.mp hdrop
      have hlelen : (docsOf st.history k).length ≤ size - 1 := by
        rw [← hslen]
        exact hle
      have hpr : prunedDocs (docsOf st.history k) size =
          docsOf st.history k := by
        simp only [prunedDocs, hdrop]
      refine ⟨hsubset, ?_, ?_, ?_⟩
      · intro _
        rw [hpr]
      · intro habs
        omega
      · intro d hd
        rw [hpr]
        have hrk : (docsOf st.history k).countP
            (fun x => decide (d.id < x.id)) < (docsOf st.history k).length :=
          countP_lt_of_mem_not _ _ d hd (by simp)
        exact ⟨fun _ => by omega, fun _ => hd⟩
    | cons d0 rest =>
      have hlen : size - 1 < (sortByIdDesc (docsOf st.history k)).length := by
        by_contra hcon
        push_neg at hcon
        rw [List.drop_eq_nil_of_le hcon] at hdrop
        cases hdrop
      have hd0 : d0 = (sortByIdDesc (docsOf st.history k)).get
          ⟨size - 1, hlen⟩ := by
        have hgc := List.drop_eq_getElem_cons
          (l := sortByIdDesc (docsOf st.history k)) hlen
        rw [hdrop] at hgc
        rw [List.get_eq_getElem]
        exact ((List.cons.injEq _ _ _ _).mp hgc).1
      have hpr : prunedDocs (docsOf st.history k) size =
          (docsOf st.history k).filter (fun x => !decide (x.id < d0.id)) := by
        simp only [prunedDocs, hdrop]
      have hcut : getOldestTimeToKeep st.history k size = some d0.id := by
        unfold getOldestTimeToKeep
        rw [hdrop]
      have hkeep : ∀ x ∈ docsOf st.history k,
          ((!decide (x.id < d0.id)) = true ↔
            (docsOf st.history k).countP
              (fun y => decide (x.id < y.id)) < size) := by
        intro x hx
        have hk := keep_iff_rank (docsOf st.history k) hnd2 size hsz hlen x hx
        rw [hd0]
        simpa using hk
      refine ⟨hsubset, ?_, ?_, ?_⟩
      · intro hlenle
        rw [hpr]
        apply List.filter_eq_self.mpr
        intro x hx
        apply (hkeep x hx).mpr
        have hrk := countP_lt_of_mem_not (docsOf st.history k)
          (fun y => decide (x.id < y.id)) x hx (by simp)
        omega
      · intro _
        exact ⟨d0.id, hcut, by rw [hpr]⟩
      · intro d hd
        rw [hpr, List.mem_filter]
        constructor
        · rintro ⟨-, hb⟩
          exact (hkeep d hd).mp hb
        · intro hrank
          exact ⟨hd, (hkeep d hd).mpr hrank⟩
  · have hnil : docsOf st.history k = [] :=
      docsOf_nil_of_not_mem st.history k hkin
    rw [hmain, if_neg hkin]
    refine ⟨hsubset, ?_, ?_, ?_⟩
    · intro _
      rfl
    · intro habs
      rw [hnil] at habs
      simp at habs
      omega
    · intro d hd
      rw [hnil] at hd
      cases hd

/-- C1 witness: entity "a" owns 4 entries with identifiers 0, 2, 3, 5;
pruning to 2 must keep exactly the entries whose rank among "a"-entries is
below 2 (identifiers 3 and 5). -/
theorem PruneStatusHistory_spec_witness :
    (1 ≤ 2) ∧ ((exHSt.history.map (fun d => d.id)).Nodup) ∧
    (∀ d ∈ docsOf exHSt.history "a",
      d ∈ docsOf (PruneStatusHistory exHSt 2).history "a" ↔
        (docsOf exHSt.history "a").countP
          (fun x => decide (d.id < x.id)) < 2) :=
  ⟨by omega, by decide,
    (PruneStatusHistory_spec exHSt 2 "a" (by omega) (by decide)).2.2.2⟩

end JujuStatus
